import Mathlib

/-!
Verification development for the `ConditionsStore` component of
`src/source/ConditionsStore.cpp` (endless-sky).

The store is shallowly embedded: `std::map<std::string, ConditionEntry>` becomes
a key-sorted association list, `std::map<std::string, DerivedProvider>` becomes an
association list keyed by provider name, and the C++ pointer from an entry to its
provider (`DerivedProvider *`) becomes the provider's registry key (an
`Option String`), which is faithful because the registry is keyed by name and
node-stable. Provider callbacks (`std::function`) become Lean functions.
`int64_t` condition values are modelled as `Int`; none of the verified
properties depend on 64-bit wrap-around. String comparison in C++
(`std::string::operator<`, byte-wise lexicographic) is modelled by an explicit
lexicographic comparison on `String.data`; for UTF-8 encoded strings the
byte-wise order and the codepoint-wise order agree.
-/

/-- Lexicographic strict comparison on character lists, mirroring
`std::string::operator<` (byte-wise lexicographic comparison in C++). -/
def charsLt : List Char → List Char → Bool
  | [], [] => false
  | [], _ :: _ => true
  | _ :: _, [] => false
  | a :: as, b :: bs => if a < b then true else if b < a then false else charsLt as bs

/-- Strict `<` on keys, as used by the store's `std::map` ordering. -/
def sLt (a b : String) : Bool := charsLt a.data b.data

/-- Predicate for `name.compare(0, p.length(), p) == 0` in the C++ source: `p` is a literal
textual prefix of `name`. -/
def sPre (p name : String) : Bool := p.data.isPrefixOf name.data

theorem charsLt_irrefl (l : List Char) : charsLt l l = false := by
  induction l with
  | nil => rfl
  | cons a as ih => simp [charsLt, ih]

theorem charsLt_asymm {a b : List Char} (h : charsLt a b = true) : charsLt b a = false := by
  induction a generalizing b with
  | nil =>
    cases b with
    | nil => simp [charsLt] at h
    | cons y ys => simp [charsLt]
  | cons x xs ih =>
    cases b with
    | nil => simp [charsLt] at h
    | cons y ys =>
      by_cases hxy : x < y
      · have hyx : ¬ y < x := lt_asymm hxy
        simp [charsLt, hxy, hyx]
      · by_cases hyx : y < x
        · simp [charsLt, hxy, hyx] at h
        · simp only [charsLt, if_neg hxy, if_neg hyx] at h
          simp [charsLt, hxy, hyx, ih h]

theorem charsLt_trans {a b c : List Char} (hab : charsLt a b = true)
    (hbc : charsLt b c = true) : charsLt a c = true := by
  induction a generalizing b c with
  | nil =>
    cases c with
    | nil =>
      cases b with
      | nil => simp [charsLt] at hab
      | cons y ys => simp [charsLt] at hbc
    | cons z zs => simp [charsLt]
  | cons x xs ih =>
    cases b with
    | nil => simp [charsLt] at hab
    | cons y ys =>
      cases c with
      | nil => simp [charsLt] at hbc
      | cons z zs =>
        by_cases hxy : x < y <;> by_cases hyz : y < z
        · have hxz : x < z := lt_trans hxy hyz
          simp [charsLt, hxz]
        · by_cases hzy : z < y
          · simp [charsLt, hyz, hzy] at hbc
          · have hyz' : y = z := le_antisymm (not_lt.mp hzy) (not_lt.mp hyz)
            subst hyz'
            simp [charsLt, hxy]
        · by_cases hyx : y < x
          · simp [charsLt, hxy, hyx] at hab
          · have hxy' : x = y := le_antisymm (not_lt.mp hyx) (not_lt.mp hxy)
            subst hxy'
            simp [charsLt, hyz]
        · by_cases hyx : y < x
          · simp [charsLt, hxy, hyx] at hab
          · have hxy' : x = y := le_antisymm (not_lt.mp hyx) (not_lt.mp hxy)
            subst hxy'
            simp only [charsLt, if_neg (lt_irrefl x)] at hab
            by_cases hzx : z < x
            · simp [charsLt, hyz, hzx] at hbc
            · simp only [charsLt, if_neg hyz, if_neg hzx] at hbc
              simp only [charsLt, if_neg hyz, if_neg hzx]
              exact ih hab hbc

theorem charsLt_connex {a b : List Char} (hab : charsLt a b = false)
    (hba : charsLt b a = false) : a = b := by
  induction a generalizing b with
  | nil =>
    cases b with
    | nil => rfl
    | cons y ys => simp [charsLt] at hab
  | cons x xs ih =>
    cases b with
    | nil => simp [charsLt] at hba
    | cons y ys =>
      by_cases hxy : x < y
      · simp [charsLt, hxy] at hab
      · by_cases hyx : y < x
        · simp [charsLt, hyx] at hba
        · have hxy' : x = y := le_antisymm (not_lt.mp hyx) (not_lt.mp hxy)
          subst hxy'
          simp only [charsLt, if_neg hxy, if_neg hyx] at hab hba
          rw [ih hab hba]

/-- A prefix of a list never comes strictly after it lexicographically. -/
theorem charsLt_of_isPrefixOf {p q : List Char} (h : p.isPrefixOf q = true) :
    charsLt q p = false := by
  induction p generalizing q with
  | nil =>
    cases q with
    | nil => rfl
    | cons y ys => rfl
  | cons x xs ih =>
    cases q with
    | nil => simp [List.isPrefixOf] at h
    | cons y ys =>
      simp only [List.isPrefixOf, Bool.and_eq_true, beq_iff_eq] at h
      obtain ⟨rfl, hrest⟩ := h
      simp [charsLt, lt_irrefl, ih hrest]

theorem string_eq_of_data_eq {a b : String} (h : a.data = b.data) : a = b :=
  congrArg String.mk h

theorem sLt_irrefl (a : String) : sLt a a = false := charsLt_irrefl a.data

theorem sLt_asymm {a b : String} (h : sLt a b = true) : sLt b a = false :=
  charsLt_asymm h

theorem sLt_trans {a b c : String} (hab : sLt a b = true) (hbc : sLt b c = true) :
    sLt a c = true := charsLt_trans hab hbc

theorem sLt_connex {a b : String} (hab : sLt a b = false) (hba : sLt b a = false) :
    a = b := string_eq_of_data_eq (charsLt_connex hab hba)

theorem sLt_ne {a b : String} (h : sLt a b = true) : a ≠ b := by
  rintro rfl
  rw [sLt_irrefl] at h
  exact Bool.false_ne_true h

/-- A textual prefix of a key is `≤` that key in the map order. -/
theorem sLt_of_sPre {p q : String} (h : sPre p q = true) : sLt q p = false :=
  charsLt_of_isPrefixOf h

/-- Model of `ConditionsStore::DerivedProvider`: a named computation unit with four
callback slots (`SetGetFunction` etc. wire them after construction). The C++
constructor takes only the name and the prefix flag; the callback slots start
unset (calling an unset `std::function` is a caller contract violation per the
design), so `emplaceProvider` fills them with inert defaults. -/
structure ConditionsStore.DerivedProvider where
  name : String
  isPrefixProvider : Bool
  getFunction : String → Int
  hasFunction : String → Bool
  setFunction : String → Int → Bool
  eraseFunction : String → Bool

/-- Model of `ConditionsStore::ConditionEntry`. The C++ `provider` member is a raw
pointer into the node-stable provider registry (`std::map` keyed by provider
name), embedded here as the provider's registry key. `fullKey` is the exact key
to hand the provider; it is empty when the entry sits at the provider's own
registered name. Field defaults (value `0`, no provider, empty `fullKey`) are
those of a default-constructed entry; the class declaration lives in the
header (not under `src/`), and the defaults follow the spec's
"fresh inline zero-valued Entry". -/
structure ConditionsStore.ConditionEntry where
  value : Int
  provider : Option String
  fullKey : String
deriving DecidableEq

/-- The store: `storage` embeds `std::map<std::string, ConditionEntry>` as an
association list kept sorted by `sLt`; `providers` embeds
`std::map<std::string, DerivedProvider>` (its iteration order is never
observed, so a plain association list suffices). -/
structure ConditionsStore where
  storage : List (String × ConditionsStore.ConditionEntry)
  providers : List (String × ConditionsStore.DerivedProvider)

/-- Embeds `storage.find(name)` (exact-key lookup in the sorted index). -/
def findExact (name : String) :
    List (String × ConditionsStore.ConditionEntry) → Option ConditionsStore.ConditionEntry
  | [] => none
  | (k, e) :: t => if k = name then some e else findExact name t

/-- Embeds `storage.upper_bound(name)` stepped back by one position (the first two
steps of `ConditionsStore::GetEntry`): the last element whose key is `≤ name`
which, on the sorted index, is the greatest key `≤ name`. -/
def findLE (name : String) :
    List (String × ConditionsStore.ConditionEntry) →
      Option (String × ConditionsStore.ConditionEntry)
  | [] => none
  | (k, e) :: t =>
    match findLE name t with
    | some r => some r
    | none => if sLt name k then none else some (k, e)

/-- Embeds `storage[k] = e`: ordered insert-or-overwrite, the effect of
`std::map::operator[]` followed by assignment. -/
def insertSorted (name : String) (e : ConditionsStore.ConditionEntry) :
    List (String × ConditionsStore.ConditionEntry) →
      List (String × ConditionsStore.ConditionEntry)
  | [] => [(name, e)]
  | (k, v) :: t =>
    if sLt name k then (name, e) :: (k, v) :: t
    else if name = k then (name, e) :: t
    else (k, v) :: insertSorted name e t

/-- Embeds `storage.erase(name)`. -/
def eraseKey (name : String) :
    List (String × ConditionsStore.ConditionEntry) →
      List (String × ConditionsStore.ConditionEntry)
  | [] => []
  | (k, v) :: t => if k = name then t else (k, v) :: eraseKey name t

/-- Lookup in the provider registry (dereferencing an entry's provider
pointer). -/
def lookupProvider (pn : String) :
    List (String × ConditionsStore.DerivedProvider) →
      Option ConditionsStore.DerivedProvider
  | [] => none
  | (k, p) :: t => if k = pn then some p else lookupProvider pn t

/-- Embeds `providers.emplace(name, DerivedProvider(name, isPrefixProvider))`: inserts
a freshly constructed provider only when `name` is not yet registered (C++
`emplace` never overwrites). The four callback slots start inert. -/
def emplaceProvider (name : String) (isPfx : Bool)
    (ps : List (String × ConditionsStore.DerivedProvider)) :
    List (String × ConditionsStore.DerivedProvider) :=
  if (lookupProvider name ps).isSome then ps
  else ps ++ [(name, ⟨name, isPfx, fun _ => 0, fun _ => false, fun _ _ => false, fun _ => false⟩)]

/-- Model of `ConditionsStore::GetEntry(name)` (`src/source/ConditionsStore.cpp:455`):
single predecessor search resolving exact matches and prefix-provider
coverage. The C++ function returns a pointer into the index; the model returns
the found key together with the entry (pointer identity = key identity). A
`provider` pointer whose registry key is absent would be a dangling pointer in
C++ (impossible through the API); the model resolves that case to no match. -/
def ConditionsStore.GetEntry (s : ConditionsStore) (name : String) :
    Option (String × ConditionsStore.ConditionEntry) :=
  match findLE name s.storage with
  | none => none
  | some (k, e) =>
    if k = name then some (k, e)
    else
      match e.provider with
      | none => none
      | some pn =>
        match lookupProvider pn s.providers with
        | none => none
        | some p =>
          if p.isPrefixProvider && sPre p.name name then some (k, e) else none

/-- Provider callback dispatch for `ce->provider->getFunction(name)`; the
`none` case is a dangling pointer (unreachable through the API). -/
def ConditionsStore.provGet (s : ConditionsStore) (pn name : String) : Int :=
  match lookupProvider pn s.providers with
  | some p => p.getFunction name
  | none => 0

def ConditionsStore.provHas (s : ConditionsStore) (pn name : String) : Bool :=
  match lookupProvider pn s.providers with
  | some p => p.hasFunction name
  | none => false

def ConditionsStore.provSet (s : ConditionsStore) (pn name : String) (v : Int) : Bool :=
  match lookupProvider pn s.providers with
  | some p => p.setFunction name v
  | none => false

def ConditionsStore.provErase (s : ConditionsStore) (pn name : String) : Bool :=
  match lookupProvider pn s.providers with
  | some p => p.eraseFunction name
  | none => false

/-- Model of `ConditionsStore::Get` (`ConditionsStore.cpp:272`). `Get` is `const` in the
source; correspondingly the model returns only the value (no store). -/
def ConditionsStore.Get (s : ConditionsStore) (name : String) : Int :=
  match s.GetEntry name with
  | none => 0
  | some (_, ce) =>
    match ce.provider with
    | none => ce.value
    | some pn => s.provGet pn name

/-- Model of `ConditionsStore::Has` (`ConditionsStore.cpp:286`), also `const`. -/
def ConditionsStore.Has (s : ConditionsStore) (name : String) : Bool :=
  match s.GetEntry name with
  | none => false
  | some (_, ce) =>
    match ce.provider with
    | none => true
    | some pn => s.provHas pn name

/-- Model of `ConditionsStore::Set` (`ConditionsStore.cpp:334`): auto-vivifies an inline
entry, overwrites an inline value in place (at the found key), or delegates to
the provider's set callback (with the full queried name) leaving the index
untouched. Returns the C++ boolean result paired with the updated store. -/
def ConditionsStore.Set (s : ConditionsStore) (name : String) (value : Int) :
    Bool × ConditionsStore :=
  match s.GetEntry name with
  | none => (true, { s with storage := insertSorted name ⟨value, none, ""⟩ s.storage })
  | some (k, ce) =>
    match ce.provider with
    | none => (true, { s with storage := insertSorted k { ce with value := value } s.storage })
    | some pn => (s.provSet pn name value, s)

/-- Model of `ConditionsStore::Erase` (`ConditionsStore.cpp:354`). -/
def ConditionsStore.Erase (s : ConditionsStore) (name : String) :
    Bool × ConditionsStore :=
  match s.GetEntry name with
  | none => (true, s)
  | some (_, ce) =>
    match ce.provider with
    | none => (true, { s with storage := eraseKey name s.storage })
    | some pn => (s.provErase pn name, s)

/-- Model of `ConditionsStore::Add` (`ConditionsStore.cpp:322`): literally
`Set(name, Get(name) + value)`, two separate resolutions. -/
def ConditionsStore.Add (s : ConditionsStore) (name : String) (value : Int) :
    Bool × ConditionsStore :=
  s.Set name (s.Get name + value)

/-- Model of `ConditionsStore::PrimariesIterator`: a position in the sorted index
(modelled as the suffix from the current position to the end bound) plus the
cached dereference value `itVal`. -/
structure ConditionsStore.PrimariesIterator where
  condMapIt : List (String × ConditionsStore.ConditionEntry)
  itVal : String × Int
deriving DecidableEq

/-- The skip loop inside `MoveToValueCondition`
(`ConditionsStore.cpp:202`): advance past every entry that carries a
provider. -/
def skipProviders :
    List (String × ConditionsStore.ConditionEntry) →
      List (String × ConditionsStore.ConditionEntry)
  | [] => []
  | (k, e) :: t => if e.provider.isSome then skipProviders t else (k, e) :: t

/-- Model of `PrimariesIterator::MoveToValueCondition`: skip provider-backed entries,
then (when not at the end) snapshot the current `(key, value)` pair into
`itVal`. -/
def ConditionsStore.PrimariesIterator.move (it : ConditionsStore.PrimariesIterator) :
    ConditionsStore.PrimariesIterator :=
  match skipProviders it.condMapIt with
  | [] => { it with condMapIt := [] }
  | (k, e) :: t => { condMapIt := (k, e) :: t, itVal := (k, e.value) }

/-- Model of `PrimariesIterator::operator++`: advance the underlying iterator, then
re-run the skip loop. -/
def ConditionsStore.PrimariesIterator.inc (it : ConditionsStore.PrimariesIterator) :
    ConditionsStore.PrimariesIterator :=
  ConditionsStore.PrimariesIterator.move { it with condMapIt := it.condMapIt.tail }

/-- Model of `PrimariesIterator::operator*`: dereference yields the snapshotted pair by
value, not a live reference into the index. -/
def ConditionsStore.PrimariesIterator.deref (it : ConditionsStore.PrimariesIterator) :
    String × Int :=
  it.itVal

/-- Model of `ConditionsStore::PrimariesBegin` (`ConditionsStore.cpp:393`); the
constructor runs `MoveToValueCondition` once, starting from a
default-constructed `itVal`. -/
def ConditionsStore.PrimariesBegin (s : ConditionsStore) :
    ConditionsStore.PrimariesIterator :=
  ConditionsStore.PrimariesIterator.move ⟨s.storage, ("", 0)⟩

/-- Model of `ConditionsStore::PrimariesEnd`: both position and end bound at
`storage.end()`, i.e. the empty suffix. -/
def ConditionsStore.PrimariesEnd (_s : ConditionsStore) :
    ConditionsStore.PrimariesIterator :=
  ConditionsStore.PrimariesIterator.move ⟨[], ("", 0)⟩

theorem skipProviders_length_le (l : List (String × ConditionsStore.ConditionEntry)) :
    (skipProviders l).length ≤ l.length := by
  induction l with
  | nil => exact Nat.le_refl 0
  | cons x t ih =>
    by_cases h : x.2.provider.isSome
    · calc (skipProviders (x :: t)).length = (skipProviders t).length := by
            simp [skipProviders, h]
        _ ≤ t.length := ih
        _ ≤ (x :: t).length := Nat.le_succ _
    · simp [skipProviders, h]

theorem ConditionsStore.PrimariesIterator.move_condMapIt
    (m : ConditionsStore.PrimariesIterator) :
    m.move.condMapIt = skipProviders m.condMapIt := by
  unfold ConditionsStore.PrimariesIterator.move
  split
  · rename_i heq
    simp [heq]
  · rename_i k e t heq
    simp [heq]

/-- The sequence of pairs produced by running the C++ iteration pattern
`for(it = begin; it != end; ++it) use(*it)` to completion: equality with the
end iterator compares only the underlying position (`operator==`), i.e. the
suffix being empty. -/
def ConditionsStore.PrimariesIterator.toList (it : ConditionsStore.PrimariesIterator) :
    List (String × Int) :=
  match h : it.condMapIt with
  | [] => []
  | _ :: _ => it.itVal :: it.inc.toList
termination_by it.condMapIt.length
decreasing_by
  simp only [ConditionsStore.PrimariesIterator.inc,
    ConditionsStore.PrimariesIterator.move_condMapIt]
  simp only [h, List.tail_cons, List.length_cons]
  exact Nat.lt_succ_of_le (skipProviders_length_le _)

/-- The rows written by the loop body of `ConditionsStore::Save`
(`ConditionsStore.cpp:254`): value `1` becomes a bare key token, any other
nonzero value a `(key, value)` row, and value `0` is omitted. -/
def saveRows : List (String × Int) → List (String × Option Int)
  | [] => []
  | (k, v) :: t =>
    if v = 1 then (k, none) :: saveRows t
    else if v = 0 then saveRows t
    else (k, some v) :: saveRows t

/-- Model of `ConditionsStore::Save` (`ConditionsStore.cpp:247`): iterate the primaries
iterator and emit rows. The surrounding `conditions` node header (written only
when at least one primary exists) frames these rows; `Load` consumes exactly
the child rows, so the model keeps the row list. -/
def ConditionsStore.Save (s : ConditionsStore) : List (String × Option Int) :=
  saveRows s.PrimariesBegin.toList

/-- Model of `ConditionsStore::Load` (`ConditionsStore.cpp:239`): each child node is a
key token optionally followed by a value token; a missing value token means
`1`. Every row becomes a `Set`, so later duplicates overwrite earlier ones. -/
def ConditionsStore.Load (s : ConditionsStore) (children : List (String × Option Int)) :
    ConditionsStore :=
  children.foldl (fun st c => (st.Set c.1 (c.2.getD 1)).2) s

/-- Model of `ConditionsStore::operator[]` (`ConditionsStore.cpp:370`): exact match
returns the live entry; otherwise a prefix-provider hit materializes a new
entry at the exact key copying the provider reference and recording the full
key; otherwise a fresh zero-valued inline entry is created. Returns the entry
the C++ reference denotes, paired with the updated store. -/
def ConditionsStore.refAt (s : ConditionsStore) (name : String) :
    ConditionsStore.ConditionEntry × ConditionsStore :=
  match findExact name s.storage with
  | some e => (e, s)
  | none =>
    match s.GetEntry name with
    | none =>
      (⟨0, none, ""⟩, { s with storage := insertSorted name ⟨0, none, ""⟩ s.storage })
    | some (_, ce) =>
      (⟨0, ce.provider, name⟩,
        { s with storage := insertSorted name ⟨0, ce.provider, name⟩ s.storage })

/-- Model of `ConditionsStore::GetProviderPrefixed` (`ConditionsStore.cpp:415`):
emplace a prefix provider under `pre` (keeping any provider already registered
under that name) and point the index entry at `pre` to it. The C++ function
returns a reference to the registry slot; callbacks are wired afterwards via
the `Set*Function` operations below. -/
def ConditionsStore.GetProviderPrefixed (s : ConditionsStore) (pre : String) :
    ConditionsStore :=
  let e := (findExact pre s.storage).getD ⟨0, none, ""⟩
  { storage := insertSorted pre { e with provider := some pre } s.storage,
    providers := emplaceProvider pre true s.providers }

/-- Model of `ConditionsStore::GetProviderNamed` (`ConditionsStore.cpp:427`). -/
def ConditionsStore.GetProviderNamed (s : ConditionsStore) (name : String) :
    ConditionsStore :=
  let e := (findExact name s.storage).getD ⟨0, none, ""⟩
  { storage := insertSorted name { e with provider := some name } s.storage,
    providers := emplaceProvider name false s.providers }

/-- Model of `ConditionsStore::Clear` (`ConditionsStore.cpp:439`). -/
def ConditionsStore.Clear (_s : ConditionsStore) : ConditionsStore :=
  ⟨[], []⟩

/-- The default-constructed store (empty index, empty registry). -/
def ConditionsStore.empty : ConditionsStore :=
  ⟨[], []⟩

/-- Model of `DerivedProvider::SetGetFunction` called on the reference returned by
provider registration: rewires the get callback of the registry slot named
`pn`. -/
def ConditionsStore.SetGetFunction (s : ConditionsStore) (pn : String)
    (f : String → Int) : ConditionsStore :=
  { s with providers :=
      s.providers.map fun kp => if kp.1 = pn then (kp.1, { kp.2 with getFunction := f }) else kp }

/-- Model of `DerivedProvider::SetHasFunction`, analogously. -/
def ConditionsStore.SetHasFunction (s : ConditionsStore) (pn : String)
    (f : String → Bool) : ConditionsStore :=
  { s with providers :=
      s.providers.map fun kp => if kp.1 = pn then (kp.1, { kp.2 with hasFunction := f }) else kp }

/-- Model of `DerivedProvider::SetSetFunction`, analogously. -/
def ConditionsStore.SetSetFunction (s : ConditionsStore) (pn : String)
    (f : String → Int → Bool) : ConditionsStore :=
  { s with providers :=
      s.providers.map fun kp => if kp.1 = pn then (kp.1, { kp.2 with setFunction := f }) else kp }

/-- Model of `DerivedProvider::SetEraseFunction`, analogously. -/
def ConditionsStore.SetEraseFunction (s : ConditionsStore) (pn : String)
    (f : String → Bool) : ConditionsStore :=
  { s with providers :=
      s.providers.map fun kp => if kp.1 = pn then (kp.1, { kp.2 with eraseFunction := f }) else kp }

/-- The sortedness invariant `std::map` maintains for `storage`: keys strictly
increase in the C++ comparison order. -/
def SortedKeys (l : List (String × ConditionsStore.ConditionEntry)) : Prop :=
  List.Pairwise (fun x y => sLt x.1 y.1 = true) l

theorem findExact_mem {l : List (String × ConditionsStore.ConditionEntry)}
    {k : String} {e : ConditionsStore.ConditionEntry}
    (h : findExact k l = some e) : (k, e) ∈ l := by
  induction l with
  | nil => simp [findExact] at h
  | cons x t ih =>
    obtain ⟨a, b⟩ := x
    by_cases hak : a = k
    · subst hak
      simp [findExact] at h
      rw [← h]
      exact List.mem_cons_self _ _
    · simp only [findExact, if_neg hak] at h
      exact List.mem_cons_of_mem _ (ih h)

theorem findExact_eq_none {l : List (String × ConditionsStore.ConditionEntry)}
    {k : String} (h : findExact k l = none)
    {e : ConditionsStore.ConditionEntry} : (k, e) ∉ l := by
  induction l with
  | nil => simp
  | cons x t ih =>
    obtain ⟨a, b⟩ := x
    by_cases hak : a = k
    · subst hak
      simp [findExact] at h
    · simp only [findExact, if_neg hak] at h
      intro hm
      rcases List.mem_cons.mp hm with heq | hmt
      · exact hak (congrArg Prod.fst heq).symm
      · exact ih h hmt

theorem findExact_of_mem {l : List (String × ConditionsStore.ConditionEntry)}
    {k : String} {e : ConditionsStore.ConditionEntry}
    (hs : SortedKeys l) (hm : (k, e) ∈ l) : findExact k l = some e := by
  induction l with
  | nil => simp at hm
  | cons x t ih =>
    obtain ⟨a, b⟩ := x
    have hhead := (List.pairwise_cons.mp hs).1
    have htail := (List.pairwise_cons.mp hs).2
    rcases List.mem_cons.mp hm with heq | hmt
    · obtain ⟨h1, h2⟩ := Prod.mk.injEq .. ▸ heq.symm
      simp [findExact, h1.symm, h2]
    · by_cases hak : a = k
      · subst hak
        have := hhead (a, e) hmt
        rw [sLt_irrefl] at this
        exact absurd this (by simp)
      · simp only [findExact, if_neg hak]
        exact ih htail hmt

theorem findLE_eq_none {l : List (String × ConditionsStore.ConditionEntry)}
    {name : String} (h : findLE name l = none) :
    ∀ x ∈ l, sLt name x.1 = true := by
  induction l with
  | nil => simp
  | cons x t ih =>
    simp only [findLE] at h
    cases hft : findLE name t with
    | some r => rw [hft] at h; exact absurd h (by simp)
    | none =>
      rw [hft] at h
      by_cases hk : sLt name x.1 = true
      · intro y hy
        rcases List.mem_cons.mp hy with rfl | hyt
        · exact hk
        · exact ih hft y hyt
      · rw [if_neg (by simpa using hk)] at h
        exact absurd h (by simp)

theorem findLE_spec {l : List (String × ConditionsStore.ConditionEntry)}
    {name k : String} {e : ConditionsStore.ConditionEntry}
    (hs : SortedKeys l) (h : findLE name l = some (k, e)) :
    (k, e) ∈ l ∧ sLt name k = false ∧
      ∀ x ∈ l, sLt name x.1 = false → sLt k x.1 = false := by
  induction l with
  | nil => simp [findLE] at h
  | cons y t ih =>
    obtain ⟨a, b⟩ := y
    have hhead := (List.pairwise_cons.mp hs).1
    have htail := (List.pairwise_cons.mp hs).2
    simp only [findLE] at h
    cases hft : findLE name t with
    | some r =>
      rw [hft] at h
      obtain rfl : r = (k, e) := by simpa using h
      obtain ⟨hm, hle, hmax⟩ := ih htail hft
      refine ⟨List.mem_cons_of_mem _ hm, hle, ?_⟩
      intro x hx hxle
      rcases List.mem_cons.mp hx with rfl | hxt
      · exact sLt_asymm (hhead (k, e) hm)
      · exact hmax x hxt hxle
    | none =>
      rw [hft] at h
      by_cases hk : sLt name a = true
      · rw [if_pos hk] at h
        exact absurd h (by simp)
      · replace hk : sLt name a = false := by simpa using hk
        rw [if_neg (by simp [hk])] at h
        obtain ⟨rfl, rfl⟩ : a = k ∧ b = e := by simpa [Prod.ext_iff] using h
        refine ⟨List.mem_cons_self _ _, hk, ?_⟩
        intro x hx hxle
        rcases List.mem_cons.mp hx with rfl | hxt
        · rw [sLt_irrefl]
        · have := findLE_eq_none hft x hxt
          rw [this] at hxle
          exact absurd hxle (by simp)

theorem findExact_insertSorted {l : List (String × ConditionsStore.ConditionEntry)}
    (a k : String) (e : ConditionsStore.ConditionEntry) :
    findExact k (insertSorted a e l) = if a = k then some e else findExact k l := by
  induction l with
  | nil => simp [insertSorted, findExact]
  | cons y t ih =>
    obtain ⟨c, d⟩ := y
    simp only [insertSorted]
    by_cases hlt : sLt a c = true
    · rw [if_pos hlt]
      by_cases hak : a = k
      · simp [findExact, hak]
      · simp [findExact, hak]
    · rw [if_neg hlt]
      by_cases hac : a = c
      · rw [if_pos hac]
        subst hac
        by_cases hak : a = k
        · simp [findExact, hak]
        · simp [findExact, hak]
      · rw [if_neg hac]
        by_cases hck : c = k
        · have hak : ¬ a = k := fun hh => hac (hh.trans hck.symm)
          simp [findExact, hck, hak]
        · simp only [findExact, if_neg hck]
          exact ih

theorem mem_insertSorted {l : List (String × ConditionsStore.ConditionEntry)}
    {a k : String} {e v : ConditionsStore.ConditionEntry}
    (h : (k, v) ∈ insertSorted a e l) : (k, v) = (a, e) ∨ (k, v) ∈ l := by
  induction l with
  | nil => simpa [insertSorted] using h
  | cons y t ih =>
    obtain ⟨c, d⟩ := y
    simp only [insertSorted] at h
    by_cases hlt : sLt a c = true
    · rw [if_pos hlt] at h
      rcases List.mem_cons.mp h with h1 | h2
      · exact Or.inl h1
      · exact Or.inr h2
    · rw [if_neg hlt] at h
      by_cases hac : a = c
      · rw [if_pos hac] at h
        rcases List.mem_cons.mp h with h1 | h2
        · exact Or.inl h1
        · exact Or.inr (List.mem_cons_of_mem _ h2)
      · rw [if_neg hac] at h
        rcases List.mem_cons.mp h with h1 | h2
        · exact Or.inr (h1 ▸ List.mem_cons_self _ _)
        · rcases ih h2 with h3 | h3
          · exact Or.inl h3
          · exact Or.inr (List.mem_cons_of_mem _ h3)

theorem sorted_insertSorted {l : List (String × ConditionsStore.ConditionEntry)}
    (a : String) (e : ConditionsStore.ConditionEntry)
    (hs : SortedKeys l) : SortedKeys (insertSorted a e l) := by
  induction l with
  | nil => simp [insertSorted, SortedKeys]
  | cons y t ih =>
    obtain ⟨c, d⟩ := y
    have hhead := (List.pairwise_cons.mp hs).1
    have htail := (List.pairwise_cons.mp hs).2
    simp only [insertSorted]
    by_cases hlt : sLt a c = true
    · rw [if_pos hlt]
      refine List.pairwise_cons.mpr ⟨?_, hs⟩
      intro x hx
      rcases List.mem_cons.mp hx with h1 | hxt
      · rw [h1]
        exact hlt
      · exact sLt_trans hlt (hhead x hxt)
    · rw [if_neg hlt]
      by_cases hac : a = c
      · rw [if_pos hac]
        subst hac
        refine List.pairwise_cons.mpr ⟨hhead, htail⟩
      · have hca : sLt c a = true := by
          by_contra hca
          exact hac (sLt_connex (show sLt a c = false by simpa using hlt)
            (show sLt c a = false by simpa using hca))
        rw [if_neg hac]
        refine List.pairwise_cons.mpr ⟨?_, ih htail⟩
        intro x hx
        obtain ⟨k1, v1⟩ := x
        rcases mem_insertSorted hx with h1 | hxt
        · obtain ⟨h2, _⟩ := Prod.mk.injEq .. ▸ h1
          rw [h2]
          exact hca
        · exact hhead _ hxt

theorem mem_eraseKey {l : List (String × ConditionsStore.ConditionEntry)}
    {n : String} {x : String × ConditionsStore.ConditionEntry}
    (h : x ∈ eraseKey n l) : x ∈ l := by
  induction l with
  | nil => simpa [eraseKey] using h
  | cons y t ih =>
    simp only [eraseKey] at h
    by_cases hyn : y.1 = n
    · rw [if_pos hyn] at h
      exact List.mem_cons_of_mem _ h
    · rw [if_neg hyn] at h
      rcases List.mem_cons.mp h with rfl | h2
      · exact List.mem_cons_self _ _
      · exact List.mem_cons_of_mem _ (ih h2)

theorem get_of_getEntry_none {s : ConditionsStore} {name : String}
    (h : s.GetEntry name = none) : s.Get name = 0 := by
  simp [ConditionsStore.Get, h]

theorem has_of_getEntry_none {s : ConditionsStore} {name : String}
    (h : s.GetEntry name = none) : s.Has name = false := by
  simp [ConditionsStore.Has, h]

theorem get_of_getEntry_noprov {s : ConditionsStore} {name k : String}
    {e : ConditionsStore.ConditionEntry}
    (h : s.GetEntry name = some (k, e)) (hp : e.provider = none) :
    s.Get name = e.value := by
  simp [ConditionsStore.Get, h, hp]

theorem has_of_getEntry_noprov {s : ConditionsStore} {name k : String}
    {e : ConditionsStore.ConditionEntry}
    (h : s.GetEntry name = some (k, e)) (hp : e.provider = none) :
    s.Has name = true := by
  simp [ConditionsStore.Has, h, hp]

theorem get_of_getEntry_prov {s : ConditionsStore} {name k pn : String}
    {e : ConditionsStore.ConditionEntry}
    (h : s.GetEntry name = some (k, e)) (hp : e.provider = some pn) :
    s.Get name = s.provGet pn name := by
  simp [ConditionsStore.Get, h, hp]

theorem has_of_getEntry_prov {s : ConditionsStore} {name k pn : String}
    {e : ConditionsStore.ConditionEntry}
    (h : s.GetEntry name = some (k, e)) (hp : e.provider = some pn) :
    s.Has name = s.provHas pn name := by
  simp [ConditionsStore.Has, h, hp]

/-- An exact index entry always wins resolution (step 3 of the algorithm). -/
theorem getEntry_exact {s : ConditionsStore} {name : String}
    {e : ConditionsStore.ConditionEntry}
    (hs : SortedKeys s.storage) (h : findExact name s.storage = some e) :
    s.GetEntry name = some (name, e) := by
  have hm : (name, e) ∈ s.storage := findExact_mem h
  unfold ConditionsStore.GetEntry
  cases hfl : findLE name s.storage with
  | none =>
    have h1 := findLE_eq_none hfl (name, e) hm
    rw [sLt_irrefl] at h1
    exact absurd h1 (by simp)
  | some ke =>
    obtain ⟨k, e'⟩ := ke
    obtain ⟨hmem, hle, hmax⟩ := findLE_spec hs hfl
    have h1 : sLt k name = false := hmax (name, e) hm (by rw [sLt_irrefl])
    have hk : k = name := sLt_connex h1 hle
    subst hk
    have h2 : findExact k s.storage = some e' := findExact_of_mem hs hmem
    rw [h] at h2
    injection h2 with h2
    rw [h2]
    simp

/-- A resolution hit on an entry without a provider can only be an exact hit
(step 4 requires a prefix provider). -/
theorem getEntry_exact_key {s : ConditionsStore} {name k : String}
    {e : ConditionsStore.ConditionEntry}
    (h : s.GetEntry name = some (k, e)) (hp : e.provider = none) : k = name := by
  unfold ConditionsStore.GetEntry at h
  split at h
  · exact absurd h (by simp)
  · rename_i k0 e0 hfl
    split at h
    · rename_i hk
      injection h with h
      injection h with hk1 he1
      rw [← hk1, hk]
    · rename_i hk
      split at h
      · exact absurd h (by simp)
      · rename_i pn hp0
        split at h
        · exact absurd h (by simp)
        · rename_i p hlp
          split at h
          · injection h with h
            injection h with hk1 he1
            rw [← he1, hp0] at hp
            exact absurd hp (by simp)
          · exact absurd h (by simp)

/-- When the queried name has no exact entry and no registered prefix provider
covers it, resolution fails. -/
theorem getEntry_none_of_uncovered {s : ConditionsStore} {name : String}
    (hs : SortedKeys s.storage)
    (hx : findExact name s.storage = none)
    (hcov : ∀ pn p, lookupProvider pn s.providers = some p →
      p.isPrefixProvider = true → sPre p.name name = false) :
    s.GetEntry name = none := by
  unfold ConditionsStore.GetEntry
  cases hfl : findLE name s.storage with
  | none => rfl
  | some ke =>
    obtain ⟨k, e⟩ := ke
    obtain ⟨hmem, _, _⟩ := findLE_spec hs hfl
    have hk : ¬ k = name := by
      intro hk
      subst hk
      rw [findExact_of_mem hs hmem] at hx
      exact absurd hx (by simp)
    cases hp0 : e.provider with
    | none => simp [hk, hp0]
    | some pn =>
      cases hlp : lookupProvider pn s.providers with
      | none => simp [hk, hp0, hlp]
      | some p =>
        by_cases hpf : p.isPrefixProvider = true
        · have hnp := hcov pn p hlp hpf
          simp [hk, hp0, hlp, hpf, hnp]
        · have hpf' : p.isPrefixProvider = false := by simpa using hpf
          simp [hk, hp0, hlp, hpf']

instance (l : List (String × ConditionsStore.ConditionEntry)) :
    Decidable (SortedKeys l) :=
  inferInstanceAs (Decidable (List.Pairwise
    (fun (x y : String × ConditionsStore.ConditionEntry) => sLt x.1 y.1 = true) l))

/-- C4. For every key `k` never set and never covered by a registered
provider — no exact entry in the index and no registered prefix provider whose
name is a textual prefix of `k` — `Get(k)` returns `0` and `Has(k)` returns
`false`. `Get` and `Has` are `const` member functions embedded as pure
functions of the store, so neither call can mutate the store. -/
theorem C4_get_has_of_unset (s : ConditionsStore) (k : String)
    (hs : SortedKeys s.storage)
    (hx : findExact k s.storage = none)
    (hcov : ∀ pn p, lookupProvider pn s.providers = some p →
      p.isPrefixProvider = true → sPre p.name k = false) :
    s.Get k = 0 ∧ s.Has k = false := by
  have h := getEntry_none_of_uncovered hs hx hcov
  exact ⟨get_of_getEntry_none h, has_of_getEntry_none h⟩

/-- Witness for C4 on a concrete store holding only the primary entry
`"a" = 7`. -/
theorem C4_witness :
    SortedKeys ((ConditionsStore.empty.Set "a" 7).2.storage) ∧
      (ConditionsStore.empty.Set "a" 7).2.Get "b" = 0 ∧
      (ConditionsStore.empty.Set "a" 7).2.Has "b" = false := by
  refine ⟨by decide, ?_⟩
  exact C4_get_has_of_unset (ConditionsStore.empty.Set "a" 7).2 "b" (by decide)
    (by decide) (by intro pn p hlp; simp [lookupProvider] at hlp)

/-- C6. `Erase` on a name that resolves to no entry returns `true` and leaves
the store — index and provider registry — completely unchanged. -/
theorem C6_erase_absent (s : ConditionsStore) (k : String)
    (h : s.GetEntry k = none) : s.Erase k = (true, s) := by
  unfold ConditionsStore.Erase
  rw [h]

/-- Witness for C6 on a concrete store with one unrelated entry. -/
theorem C6_witness :
    (ConditionsStore.empty.Set "a" 2).2.GetEntry "b" = none ∧
      (ConditionsStore.empty.Set "a" 2).2.Erase "b" =
        (true, (ConditionsStore.empty.Set "a" 2).2) := by
  refine ⟨by decide, ?_⟩
  exact C6_erase_absent (ConditionsStore.empty.Set "a" 2).2 "b" (by decide)

/-- C7. `Add(name, delta)` is exactly `Set(name, Get(name) + delta)`: same
boolean result and same post-state. The source defines `Add` as this composite
(`ConditionsStore.cpp:327`), performing resolution twice — once inside `Get`
and once inside `Set`. -/
theorem C7_add_refines_set_get (s : ConditionsStore) (name : String) (delta : Int) :
    s.Add name delta = s.Set name (s.Get name + delta) := rfl

/-- C10. When a name resolves to a provider-backed entry, `Erase` only invokes
the provider's erase callback (propagating its boolean result) and leaves the
index untouched — whatever the callback returns, the store state is
unchanged. -/
theorem C10_erase_provider_frame (s : ConditionsStore) (name k pn : String)
    (e : ConditionsStore.ConditionEntry)
    (h : s.GetEntry name = some (k, e)) (hp : e.provider = some pn) :
    s.Erase name = (s.provErase pn name, s) := by
  simp [ConditionsStore.Erase, h, hp]

/-- Witness for C10: a prefix provider over `"ev"` whose erase callback
refuses; erasing a covered name reports the refusal and changes nothing. -/
theorem C10_witness :
    ((ConditionsStore.empty.GetProviderPrefixed "ev").SetEraseFunction "ev"
          (fun _ => false)).Erase "evx" =
      (false, (ConditionsStore.empty.GetProviderPrefixed "ev").SetEraseFunction "ev"
        (fun _ => false)) := by
  have h := C10_erase_provider_frame
    ((ConditionsStore.empty.GetProviderPrefixed "ev").SetEraseFunction "ev" (fun _ => false))
    "evx" "ev" "ev" ⟨0, some "ev", ""⟩ (by decide) (by decide)
  rw [h]
  rfl

/-- C5. `Set(k, v)` on a name that does not resolve to a provider-backed entry
always returns `true` (auto-vivifying an inline entry when absent), and
afterwards `Get(k) == v` and `Has(k) == true`. -/
theorem C5_set_primary (s : ConditionsStore) (k : String) (v : Int)
    (hs : SortedKeys s.storage)
    (hnp : ∀ k0 e, s.GetEntry k = some (k0, e) → e.provider = none) :
    (s.Set k v).1 = true ∧ (s.Set k v).2.Get k = v ∧ (s.Set k v).2.Has k = true := by
  cases hge : s.GetEntry k with
  | none =>
    have hset : s.Set k v =
        (true, { s with storage := insertSorted k ⟨v, none, ""⟩ s.storage }) := by
      simp [ConditionsStore.Set, hge]
    rw [hset]
    have hs' : SortedKeys (insertSorted k ⟨v, none, ""⟩ s.storage) :=
      sorted_insertSorted k _ hs
    have hfx : findExact k (insertSorted k ⟨v, none, ""⟩ s.storage) =
        some ⟨v, none, ""⟩ := by
      rw [findExact_insertSorted, if_pos rfl]
    have hge' := getEntry_exact (s := { s with storage := insertSorted k ⟨v, none, ""⟩ s.storage })
      hs' hfx
    exact ⟨rfl, get_of_getEntry_noprov hge' rfl, has_of_getEntry_noprov hge' rfl⟩
  | some ke =>
    obtain ⟨k0, e⟩ := ke
    have hp : e.provider = none := hnp k0 e hge
    have hk0 : k0 = k := getEntry_exact_key hge hp
    subst hk0
    have hset : (s.Set k0 v).2 =
        { s with storage := insertSorted k0 ⟨v, none, e.fullKey⟩ s.storage } := by
      simp [ConditionsStore.Set, hge, hp]
    have hres : (s.Set k0 v).1 = true := by
      simp [ConditionsStore.Set, hge, hp]
    have hs' : SortedKeys (insertSorted k0 ⟨v, none, e.fullKey⟩ s.storage) :=
      sorted_insertSorted k0 _ hs
    have hfx : findExact k0 (insertSorted k0 ⟨v, none, e.fullKey⟩ s.storage) =
        some ⟨v, none, e.fullKey⟩ := by
      rw [findExact_insertSorted, if_pos rfl]
    have hge' := getEntry_exact
      (s := { s with storage := insertSorted k0 ⟨v, none, e.fullKey⟩ s.storage }) hs' hfx
    refine ⟨hres, ?_, ?_⟩
    · rw [hset, get_of_getEntry_noprov hge' rfl]
    · rw [hset, has_of_getEntry_noprov hge' rfl]

/-- Witness for C5: setting a fresh key in a store with one unrelated entry. -/
theorem C5_witness :
    ((ConditionsStore.empty.Set "a" 3).2.Set "b" 9).2.Get "b" = 9 ∧
      ((ConditionsStore.empty.Set "a" 3).2.Set "b" 9).2.Has "b" = true := by
  have h := C5_set_primary (ConditionsStore.empty.Set "a" 3).2 "b" 9 (by decide)
    (by
      intro k0 e hge
      have hnone : (ConditionsStore.empty.Set "a" 3).2.GetEntry "b" = none := by decide
      rw [hnone] at hge
      exact absurd hge (by simp))
  exact ⟨h.2.1, h.2.2⟩

/-- Routing core for prefix resolution: when a prefix provider is registered
for `p` (registry entry plus linked index entry at `p`), the queried `name`
starts with `p`, no exact entry exists at `name`, and every index entry with a
key strictly between `p` and `name` carries that provider's reference, then
resolution finds a provider-backed entry and `Get`/`Has` dispatch to the
provider's callbacks with the full queried name. -/
theorem prefixRoute {s : ConditionsStore} {p name : String}
    {prov : ConditionsStore.DerivedProvider} {ep : ConditionsStore.ConditionEntry}
    (hs : SortedKeys s.storage)
    (hreg : lookupProvider p s.providers = some prov)
    (hflag : prov.isPrefixProvider = true)
    (hname : prov.name = p)
    (hep : findExact p s.storage = some ep)
    (hlink : ep.provider = some p)
    (hpre : sPre p name = true)
    (hnone : findExact name s.storage = none)
    (hmid : ∀ x ∈ s.storage, sLt p x.1 = true → sLt x.1 name = true →
      x.2.provider = some p) :
    ∃ k e, s.GetEntry name = some (k, e) ∧ e.provider = some p ∧
      s.Get name = prov.getFunction name ∧ s.Has name = prov.hasFunction name := by
  have hmp : (p, ep) ∈ s.storage := findExact_mem hep
  have hple : sLt name p = false := sLt_of_sPre hpre
  cases hfl : findLE name s.storage with
  | none =>
    exact absurd (findLE_eq_none hfl (p, ep) hmp) (by simp [hple])
  | some ke =>
    obtain ⟨k, e⟩ := ke
    obtain ⟨hmem, hle, hmax⟩ := findLE_spec hs hfl
    have hkp : sLt k p = false := hmax (p, ep) hmp hple
    have hkne : ¬ k = name := by
      intro hk
      subst hk
      rw [findExact_of_mem hs hmem] at hnone
      exact absurd hnone (by simp)
    have hkn : sLt k name = true := by
      cases hkn : sLt k name
      · exact absurd (sLt_connex hkn hle) hkne
      · rfl
    have hprov : e.provider = some p := by
      by_cases hkp2 : k = p
      · subst hkp2
        have h2 := findExact_of_mem hs hmem
        rw [hep] at h2
        injection h2 with h2
        rw [← h2]
        exact hlink
      · have hpk : sLt p k = true := by
          cases hpk : sLt p k
          · exact absurd (sLt_connex hpk hkp).symm hkp2
          · rfl
        exact hmid (k, e) hmem hpk hkn
    have hge : s.GetEntry name = some (k, e) := by
      unfold ConditionsStore.GetEntry
      rw [hfl]
      simp [hkne, hprov, hreg, hflag, hname, hpre]
    refine ⟨k, e, hge, hprov, ?_, ?_⟩
    · rw [get_of_getEntry_prov hge hprov]
      simp [ConditionsStore.provGet, hreg]
    · rw [has_of_getEntry_prov hge hprov]
      simp [ConditionsStore.provHas, hreg]

/-- C1 (amended). For a store with a prefix provider registered for `p` and a
queried name starting with `p`: an entry at exactly the queried name always
wins resolution; otherwise, PROVIDED every index entry keyed strictly between
`p` and the queried name carries the prefix provider's reference (as every
entry materialized under the prefix does), resolution matches and routes to
the prefix provider invoked with the full queried name. The proviso is forced
by `C1_counterexample`: a plain entry lying strictly between `p` and the
queried name makes the predecessor search land on it and resolution fails. -/
theorem C1_prefix_resolution (s : ConditionsStore) (p name : String)
    (prov : ConditionsStore.DerivedProvider) (ep : ConditionsStore.ConditionEntry)
    (hs : SortedKeys s.storage)
    (hreg : lookupProvider p s.providers = some prov)
    (hflag : prov.isPrefixProvider = true)
    (hname : prov.name = p)
    (hep : findExact p s.storage = some ep)
    (hlink : ep.provider = some p)
    (hpre : sPre p name = true)
    (hmid : ∀ x ∈ s.storage, sLt p x.1 = true → sLt x.1 name = true →
      x.2.provider = some p) :
    (∀ e, findExact name s.storage = some e → s.GetEntry name = some (name, e)) ∧
      (findExact name s.storage = none →
        ∃ k e, s.GetEntry name = some (k, e) ∧ e.provider = some p ∧
          s.Get name = prov.getFunction name ∧ s.Has name = prov.hasFunction name) := by
  refine ⟨fun e he => getEntry_exact hs he, fun hnone => ?_⟩
  exact prefixRoute hs hreg hflag hname hep hlink hpre hnone hmid

/-- Counterexample to C1 as stated: in the store built by `Set("eva", 5)`
followed by registering the prefix provider `"ev"` (get callback: key length),
the name `"evb"` starts with `"ev"` and has no exact entry, yet resolution
finds nothing — `GetEntry` returns null and `Get`/`Has` give `0`/`false`
instead of routing to the provider (which would yield `3`). The plain entry
`"eva"` sits between `"ev"` and `"evb"` and blocks the predecessor search. -/
theorem C1_counterexample :
    (lookupProvider "ev" (((ConditionsStore.empty.Set "eva" 5).2.GetProviderPrefixed
        "ev").SetGetFunction "ev" (fun k => (k.length : Int))).providers).map
        (fun pr => (pr.name, pr.isPrefixProvider)) = some ("ev", true) ∧
      sPre "ev" "evb" = true ∧
      findExact "evb" (((ConditionsStore.empty.Set "eva" 5).2.GetProviderPrefixed
        "ev").SetGetFunction "ev" (fun k => (k.length : Int))).storage = none ∧
      (((ConditionsStore.empty.Set "eva" 5).2.GetProviderPrefixed
        "ev").SetGetFunction "ev" (fun k => (k.length : Int))).GetEntry "evb" = none ∧
      (((ConditionsStore.empty.Set "eva" 5).2.GetProviderPrefixed
        "ev").SetGetFunction "ev" (fun k => (k.length : Int))).Get "evb" = 0 ∧
      (((ConditionsStore.empty.Set "eva" 5).2.GetProviderPrefixed
        "ev").SetGetFunction "ev" (fun k => (k.length : Int))).Has "evb" = false := by
  refine ⟨rfl, by decide, by decide, by decide, by decide, by decide⟩

/-- Witness for C1 (amended) on the store holding only the registered prefix
provider `"ev"` with get callback `length`: `Get("eva")` routes to the
provider with the full name and returns `3`. -/
theorem C1_witness :
    ((ConditionsStore.empty.GetProviderPrefixed "ev").SetGetFunction "ev"
        (fun k => (k.length : Int))).Get "eva" = 3 := by
  have h := C1_prefix_resolution
    ((ConditionsStore.empty.GetProviderPrefixed "ev").SetGetFunction "ev"
      (fun k => (k.length : Int)))
    "ev" "eva"
    ⟨"ev", true, fun k => (k.length : Int), fun _ => false, fun _ _ => false, fun _ => false⟩
    ⟨0, some "ev", ""⟩
    (by decide) rfl rfl rfl (by decide) rfl (by decide)
    (by
      intro x hx h1 h2
      have hsto : ((ConditionsStore.empty.GetProviderPrefixed "ev").SetGetFunction "ev"
          (fun k => (k.length : Int))).storage = [("ev", ⟨0, some "ev", ""⟩)] := rfl
      rw [hsto] at hx
      rcases List.mem_cons.mp hx with h3 | h3
      · rw [h3] at h1
        exact absurd h1 (by decide)
      · simp at h3)
  obtain ⟨k, e, hge, hprov, hget, hhas⟩ := h.2 (by decide)
  rw [hget]
  rfl

/-- C3 (amended). With a prefix provider registered for `p` and an exact-name
provider registered for a longer name `n` starting with `p`: `Get(n)`/`Has(n)`
route to the exact-name provider (the exact index entry at `n` wins
resolution), and `Get`/`Has` of any other name starting with `p` that is not
exactly present still route to the prefix provider PROVIDED every index entry
keyed strictly between `p` and that name carries the prefix provider's
reference — which holds for every such name lexicographically below `n`, but
fails above `n`, where the exact-provider entry at `n` intercepts the
predecessor search (`C3_counterexample`). -/
theorem C3_exact_provider_precedence (s : ConditionsStore) (p n : String)
    (provP provN : ConditionsStore.DerivedProvider)
    (epP en : ConditionsStore.ConditionEntry)
    (hs : SortedKeys s.storage)
    (hregP : lookupProvider p s.providers = some provP)
    (hflagP : provP.isPrefixProvider = true)
    (hnameP : provP.name = p)
    (hepP : findExact p s.storage = some epP)
    (hlinkP : epP.provider = some p)
    (hregN : lookupProvider n s.providers = some provN)
    (hepN : findExact n s.storage = some en)
    (hlinkN : en.provider = some n)
    (hpn : sPre p n = true) :
    (s.Get n = provN.getFunction n ∧ s.Has n = provN.hasFunction n) ∧
      (∀ q, sPre p q = true → findExact q s.storage = none →
        (∀ x ∈ s.storage, sLt p x.1 = true → sLt x.1 q = true →
          x.2.provider = some p) →
        s.Get q = provP.getFunction q ∧ s.Has q = provP.hasFunction q) := by
  constructor
  · have hge := getEntry_exact hs hepN
    constructor
    · rw [get_of_getEntry_prov hge hlinkN]
      simp [ConditionsStore.provGet, hregN]
    · rw [has_of_getEntry_prov hge hlinkN]
      simp [ConditionsStore.provHas, hregN]
  · intro q hq hnone hmid
    obtain ⟨k, e, hge, hprov, hget, hhas⟩ :=
      prefixRoute hs hregP hflagP hnameP hepP hlinkP hq hnone hmid
    exact ⟨hget, hhas⟩

/-- Counterexample to C3 as stated: register the prefix provider `"ev"` (get:
key length) and then the exact provider `"evw"`. The name `"evx"` starts with
`"ev"`, is not `"evw"`, and is not exactly present, yet it does NOT route to
the prefix provider: the predecessor search lands on the exact-provider entry
`"evw"`, which is not a prefix provider, so resolution fails and `Get` returns
`0` (the prefix provider would have returned `3`). -/
theorem C3_counterexample :
    (lookupProvider "ev" (((ConditionsStore.empty.GetProviderPrefixed
          "ev").SetGetFunction "ev" (fun k => (k.length : Int))).GetProviderNamed
          "evw").providers).map (fun pr => (pr.name, pr.isPrefixProvider)) =
        some ("ev", true) ∧
      (lookupProvider "evw" (((ConditionsStore.empty.GetProviderPrefixed
          "ev").SetGetFunction "ev" (fun k => (k.length : Int))).GetProviderNamed
          "evw").providers).map (fun pr => (pr.name, pr.isPrefixProvider)) =
        some ("evw", false) ∧
      sPre "ev" "evx" = true ∧ "evx" ≠ "evw" ∧
      findExact "evx" (((ConditionsStore.empty.GetProviderPrefixed
        "ev").SetGetFunction "ev" (fun k => (k.length : Int))).GetProviderNamed
        "evw").storage = none ∧
      (((ConditionsStore.empty.GetProviderPrefixed "ev").SetGetFunction "ev"
        (fun k => (k.length : Int))).GetProviderNamed "evw").GetEntry "evx" = none ∧
      (((ConditionsStore.empty.GetProviderPrefixed "ev").SetGetFunction "ev"
        (fun k => (k.length : Int))).GetProviderNamed "evw").Get "evx" = 0 ∧
      (((ConditionsStore.empty.GetProviderPrefixed "ev").SetGetFunction "ev"
        (fun k => (k.length : Int))).GetProviderNamed "evw").Has "evx" = false := by
  exact ⟨rfl, rfl, by decide, by decide, by decide, by decide, by decide, by decide⟩

/-- Witness for C3 (amended): with prefix provider `"ev"` (get: key length)
and exact provider `"evw"` (get: constant `99`), `Get("evw")` yields `99` via
the exact provider while `Get("evv")` yields `3` via the prefix provider. -/
theorem C3_witness :
    ((((ConditionsStore.empty.GetProviderPrefixed "ev").SetGetFunction "ev"
          (fun k => (k.length : Int))).GetProviderNamed "evw").SetGetFunction "evw"
          (fun _ => 99)).Get "evw" = 99 ∧
      ((((ConditionsStore.empty.GetProviderPrefixed "ev").SetGetFunction "ev"
          (fun k => (k.length : Int))).GetProviderNamed "evw").SetGetFunction "evw"
          (fun _ => 99)).Get "evv" = 3 := by
  have h := C3_exact_provider_precedence
    ((((ConditionsStore.empty.GetProviderPrefixed "ev").SetGetFunction "ev"
      (fun k => (k.length : Int))).GetProviderNamed "evw").SetGetFunction "evw"
      (fun _ => 99))
    "ev" "evw"
    ⟨"ev", true, fun k => (k.length : Int), fun _ => false, fun _ _ => false, fun _ => false⟩
    ⟨"evw", false, fun _ => 99, fun _ => false, fun _ _ => false, fun _ => false⟩
    ⟨0, some "ev", ""⟩ ⟨0, some "evw", ""⟩
    (by decide) rfl rfl rfl (by decide) rfl rfl (by decide) rfl (by decide)
  constructor
  · rw [h.1.1]
  · have h2 := h.2 "evv" (by decide) (by decide)
      (by
        intro x hx h1 h2
        have hsto : ((((ConditionsStore.empty.GetProviderPrefixed "ev").SetGetFunction
            "ev" (fun k => (k.length : Int))).GetProviderNamed "evw").SetGetFunction
            "evw" (fun _ => 99)).storage =
              [("ev", ⟨0, some "ev", ""⟩), ("evw", ⟨0, some "evw", ""⟩)] := rfl
        rw [hsto] at hx
        rcases List.mem_cons.mp hx with h3 | h3
        · rw [h3] at h1
          exact absurd h1 (by decide)
        · rcases List.mem_cons.mp h3 with h4 | h4
          · rw [h4] at h2
            exact absurd h2 (by decide)
          · simp at h4)
    rw [h2.1]
    rfl

/-- The primary `(key, value)` pairs of an index suffix, in order: the
reference sequence the iterator is proved to produce. -/
def primariesOf : List (String × ConditionsStore.ConditionEntry) → List (String × Int)
  | [] => []
  | (k, e) :: t =>
    if e.provider.isSome then primariesOf t else (k, e.value) :: primariesOf t

theorem toList_of_condMapIt_nil {it : ConditionsStore.PrimariesIterator}
    (h : it.condMapIt = []) : it.toList = [] := by
  unfold ConditionsStore.PrimariesIterator.toList
  split
  · rfl
  · rename_i x xs heq
    rw [h] at heq
    exact absurd heq (by simp)

theorem toList_of_condMapIt_cons {it : ConditionsStore.PrimariesIterator}
    {x : String × ConditionsStore.ConditionEntry}
    {xs : List (String × ConditionsStore.ConditionEntry)}
    (h : it.condMapIt = x :: xs) : it.toList = it.itVal :: it.inc.toList := by
  conv_lhs => unfold ConditionsStore.PrimariesIterator.toList
  split
  · rename_i heq
    rw [h] at heq
    exact absurd heq (by simp)
  · rfl

theorem move_skip {k : String} {e : ConditionsStore.ConditionEntry}
    {t : List (String × ConditionsStore.ConditionEntry)} {v : String × Int}
    (h : e.provider.isSome = true) :
    ConditionsStore.PrimariesIterator.move ⟨(k, e) :: t, v⟩ =
      ConditionsStore.PrimariesIterator.move ⟨t, v⟩ := by
  unfold ConditionsStore.PrimariesIterator.move
  have hsk : skipProviders ((k, e) :: t) = skipProviders t := by
    simp [skipProviders, h]
  rw [hsk]

/-- Running the iteration protocol from any `MoveToValueCondition`-normalized
position produces exactly the primary pairs of the remaining suffix. -/
theorem toList_move (l : List (String × ConditionsStore.ConditionEntry)) :
    ∀ v, (ConditionsStore.PrimariesIterator.move ⟨l, v⟩).toList = primariesOf l := by
  induction l with
  | nil =>
    intro v
    exact toList_of_condMapIt_nil rfl
  | cons x t ih =>
    intro v
    obtain ⟨k, e⟩ := x
    cases hp : e.provider.isSome with
    | true =>
      rw [move_skip hp, ih v]
      simp [primariesOf, hp]
    | false =>
      have hmv : ConditionsStore.PrimariesIterator.move ⟨(k, e) :: t, v⟩ =
          ⟨(k, e) :: t, (k, e.value)⟩ := by
        unfold ConditionsStore.PrimariesIterator.move
        have hsk : skipProviders ((k, e) :: t) = (k, e) :: t := by
          simp [skipProviders, hp]
        rw [hsk]
      rw [hmv, toList_of_condMapIt_cons rfl]
      have hinc : (ConditionsStore.PrimariesIterator.inc ⟨(k, e) :: t, (k, e.value)⟩) =
          ConditionsStore.PrimariesIterator.move ⟨t, (k, e.value)⟩ := rfl
      rw [hinc, ih]
      simp [primariesOf, hp]

theorem primariesOf_eq_filter (l : List (String × ConditionsStore.ConditionEntry)) :
    primariesOf l =
      (l.filter (fun x => x.2.provider.isNone)).map (fun x => (x.1, x.2.value)) := by
  induction l with
  | nil => rfl
  | cons x t ih =>
    obtain ⟨k, e⟩ := x
    cases hp : e.provider with
    | none => simp [primariesOf, List.filter, hp, ih]
    | some pn => simp [primariesOf, List.filter, hp, ih]

/-- C8. Iterating `PrimariesBegin()` until the end position yields exactly the
`(key, value)` pairs of the provider-free entries of the sorted index, in
ascending key order, and never a provider-backed entry. Each yielded pair is
the `itVal` snapshot taken by `MoveToValueCondition` (`deref` returns the
cached pair by value, not a reference into the index). -/
theorem C8_primaries_iteration (s : ConditionsStore) (hs : SortedKeys s.storage) :
    s.PrimariesBegin.toList =
        (s.storage.filter (fun x => x.2.provider.isNone)).map
          (fun x => (x.1, x.2.value)) ∧
      List.Pairwise (fun a b => sLt a.1 b.1 = true) s.PrimariesBegin.toList ∧
      ∀ kv ∈ s.PrimariesBegin.toList,
        ∃ e, (kv.1, e) ∈ s.storage ∧ e.provider = none ∧ e.value = kv.2 := by
  have h1 : s.PrimariesBegin.toList =
      (s.storage.filter (fun x => x.2.provider.isNone)).map (fun x => (x.1, x.2.value)) := by
    unfold ConditionsStore.PrimariesBegin
    rw [toList_move, primariesOf_eq_filter]
  refine ⟨h1, ?_, ?_⟩
  · rw [h1]
    exact List.pairwise_map.mpr ((hs.filter _).imp (fun h => h))
  · intro kv hkv
    rw [h1] at hkv
    obtain ⟨x, hxf, hmap⟩ := List.mem_map.mp hkv
    obtain ⟨hxl, hxp⟩ := List.mem_filter.mp hxf
    refine ⟨x.2, ?_, ?_, ?_⟩
    · rw [← hmap]
      simpa using hxl
    · cases hp : x.2.provider with
      | none => rfl
      | some pn => rw [hp] at hxp; exact absurd hxp (by simp)
    · rw [← hmap]

/-- Witness for C8 on the spec's scenario: primaries `a=1, b=2` plus a
provider-backed entry at `c`; iteration yields exactly `[(a,1), (b,2)]`. -/
theorem C8_witness :
    SortedKeys (((ConditionsStore.empty.Set "a" 1).2.Set
        "b" 2).2.GetProviderNamed "c").storage ∧
      (((ConditionsStore.empty.Set "a" 1).2.Set
        "b" 2).2.GetProviderNamed "c").PrimariesBegin.toList = [("a", 1), ("b", 2)] := by
  refine ⟨by decide, ?_⟩
  have h := C8_primaries_iteration
    (((ConditionsStore.empty.Set "a" 1).2.Set "b" 2).2.GetProviderNamed "c") (by decide)
  rw [h.1]
  rfl

theorem findLE_mem {l : List (String × ConditionsStore.ConditionEntry)}
    {name k : String} {e : ConditionsStore.ConditionEntry}
    (h : findLE name l = some (k, e)) : (k, e) ∈ l := by
  induction l with
  | nil => simp [findLE] at h
  | cons y t ih =>
    simp only [findLE] at h
    cases hft : findLE name t with
    | some r =>
      rw [hft] at h
      injection h with h
      exact List.mem_cons_of_mem _ (ih (h ▸ hft))
    | none =>
      rw [hft] at h
      by_cases hk : sLt name y.1 = true
      · rw [if_pos hk] at h
        exact absurd h (by simp)
      · rw [if_neg hk] at h
        injection h with h
        rw [← h]
        exact List.mem_cons_self _ _

/-- Case analysis on a successful resolution: either an exact hit on an index
entry, or a prefix-provider hit whose provider is registered, flagged, and
textually covers the queried name. -/
theorem getEntry_cases {s : ConditionsStore} {name k : String}
    {e : ConditionsStore.ConditionEntry}
    (h : s.GetEntry name = some (k, e)) :
    (k, e) ∈ s.storage ∧
      (k = name ∨ ∃ pn p, e.provider = some pn ∧
        lookupProvider pn s.providers = some p ∧ p.isPrefixProvider = true ∧
        sPre p.name name = true) := by
  unfold ConditionsStore.GetEntry at h
  split at h
  · exact absurd h (by simp)
  · rename_i k0 e0 hfl
    split at h
    · rename_i hk
      injection h with h
      injection h with hk1 he1
      subst hk1
      subst he1
      exact ⟨findLE_mem hfl, Or.inl hk⟩
    · rename_i hk
      split at h
      · exact absurd h (by simp)
      · rename_i pn hp0
        split at h
        · exact absurd h (by simp)
        · rename_i p hlp
          split at h
          · rename_i hcond
            injection h with h
            injection h with hk1 he1
            subst hk1
            subst he1
            simp only [Bool.and_eq_true] at hcond
            exact ⟨findLE_mem hfl, Or.inr ⟨pn, p, hp0, hlp, hcond.1, hcond.2⟩⟩
          · exact absurd h (by simp)

theorem lookupProvider_append_of_some
    {ps qs : List (String × ConditionsStore.DerivedProvider)} {pn : String}
    {p : ConditionsStore.DerivedProvider}
    (h : lookupProvider pn ps = some p) :
    lookupProvider pn (ps ++ qs) = some p := by
  induction ps with
  | nil => simp [lookupProvider] at h
  | cons y t ih =>
    simp only [lookupProvider, List.cons_append] at h ⊢
    by_cases hk : y.1 = pn
    · rw [if_pos hk] at h ⊢
      exact h
    · rw [if_neg hk] at h ⊢
      exact ih h

theorem lookupProvider_append_of_none
    {ps : List (String × ConditionsStore.DerivedProvider)} {pn : String}
    (h : lookupProvider pn ps = none)
    (x : ConditionsStore.DerivedProvider) :
    lookupProvider pn (ps ++ [(pn, x)]) = some x := by
  induction ps with
  | nil => simp [lookupProvider]
  | cons y t ih =>
    simp only [lookupProvider, List.cons_append] at h ⊢
    by_cases hk : y.1 = pn
    · rw [if_pos hk] at h
      exact absurd h (by simp)
    · rw [if_neg hk] at h ⊢
      exact ih h

/-- C++ `emplace` never disturbs an existing binding: lookups that succeeded
before registration return the identical provider afterwards (node
stability). -/
theorem lookupProvider_emplace_mono {ps : List (String × ConditionsStore.DerivedProvider)}
    {pn : String} {p : ConditionsStore.DerivedProvider}
    (n : String) (flag : Bool)
    (h : lookupProvider pn ps = some p) :
    lookupProvider pn (emplaceProvider n flag ps) = some p := by
  unfold emplaceProvider
  split
  · exact h
  · exact lookupProvider_append_of_some h

/-- After `emplaceProvider n`, name `n` is registered; with a well-formed
registry the provider found under `n` is named `n`. -/
theorem lookupProvider_emplace_self {ps : List (String × ConditionsStore.DerivedProvider)}
    (hreg : ∀ x ∈ ps, x.2.name = x.1) (n : String) (flag : Bool) :
    ∃ p, lookupProvider n (emplaceProvider n flag ps) = some p ∧ p.name = n := by
  unfold emplaceProvider
  cases hlp : lookupProvider n ps with
  | some p0 =>
    refine ⟨p0, by simpa using hlp, ?_⟩
    have hm : (n, p0) ∈ ps := by
      clear hreg
      induction ps with
      | nil => simp [lookupProvider] at hlp
      | cons y t ih =>
        simp only [lookupProvider] at hlp
        by_cases hk : y.1 = n
        · rw [if_pos hk] at hlp
          injection hlp with hlp
          have : y = (n, p0) := by
            obtain ⟨y1, y2⟩ := y
            simp only at hk hlp
            rw [hk, hlp]
          rw [← this]
          exact List.mem_cons_self _ _
        · rw [if_neg hk] at hlp
          exact List.mem_cons_of_mem _ (ih hlp)
    exact hreg (n, p0) hm
  | none =>
    have happ := lookupProvider_append_of_none hlp
      (⟨n, flag, fun _ => 0, fun _ => false, fun _ _ => false,
        fun _ => false⟩ : ConditionsStore.DerivedProvider)
    exact ⟨_, by simpa using happ, rfl⟩

theorem registryWF_emplace {ps : List (String × ConditionsStore.DerivedProvider)}
    (hreg : ∀ x ∈ ps, x.2.name = x.1) (n : String) (flag : Bool) :
    ∀ x ∈ emplaceProvider n flag ps, x.2.name = x.1 := by
  unfold emplaceProvider
  split
  · exact hreg
  · intro x hx
    rcases List.mem_append.mp hx with h1 | h1
    · exact hreg x h1
    · simp only [List.mem_singleton] at h1
      rw [h1]

/-- Registry well-formedness, true by construction in C++: every provider in
`providers` is stored under its own name (the only insertions are
`providers.emplace(name, DerivedProvider(name, flag))`). -/
def RegistryWF (ps : List (String × ConditionsStore.DerivedProvider)) : Prop :=
  ∀ x ∈ ps, x.2.name = x.1

/-- The spec's store invariant: every index entry whose provider reference is
set points at a registered provider whose name is exactly the entry's key or a
textual prefix of it. -/
def StoreInvariant (s : ConditionsStore) : Prop :=
  ∀ x ∈ s.storage, ∀ pn, x.2.provider = some pn →
    ∃ p, lookupProvider pn s.providers = some p ∧
      (p.name = x.1 ∨ sPre p.name x.1 = true)

theorem storeInv_insert {s : ConditionsStore} {a : String}
    {e' : ConditionsStore.ConditionEntry}
    (hinv : StoreInvariant s)
    (hnew : ∀ pn, e'.provider = some pn →
      ∃ p, lookupProvider pn s.providers = some p ∧
        (p.name = a ∨ sPre p.name a = true)) :
    StoreInvariant { s with storage := insertSorted a e' s.storage } := by
  intro x hx pn hpn
  obtain ⟨k, v⟩ := x
  rcases mem_insertSorted hx with h1 | h1
  · injection h1 with hk hv
    subst hk
    rw [hv] at hpn
    exact hnew pn hpn
  · exact hinv (k, v) h1 pn hpn

theorem storeWF_Set {s : ConditionsStore}
    (hreg : RegistryWF s.providers) (hinv : StoreInvariant s) (n : String) (v : Int) :
    RegistryWF (s.Set n v).2.providers ∧ StoreInvariant (s.Set n v).2 := by
  cases hge : s.GetEntry n with
  | none =>
    have hst : (s.Set n v).2 =
        { s with storage := insertSorted n ⟨v, none, ""⟩ s.storage } := by
      simp [ConditionsStore.Set, hge]
    rw [hst]
    exact ⟨hreg, storeInv_insert hinv (fun pn hpn => absurd hpn (by simp))⟩
  | some ke =>
    obtain ⟨k, ce⟩ := ke
    cases hp : ce.provider with
    | none =>
      have hst : (s.Set n v).2 =
          { s with storage := insertSorted k ⟨v, none, ce.fullKey⟩ s.storage } := by
        simp [ConditionsStore.Set, hge, hp]
      rw [hst]
      exact ⟨hreg, storeInv_insert hinv (fun pn hpn => absurd hpn (by simp))⟩
    | some pn =>
      have hst : (s.Set n v).2 = s := by
        simp [ConditionsStore.Set, hge, hp]
      rw [hst]
      exact ⟨hreg, hinv⟩

theorem storeWF_Erase {s : ConditionsStore}
    (hreg : RegistryWF s.providers) (hinv : StoreInvariant s) (n : String) :
    RegistryWF (s.Erase n).2.providers ∧ StoreInvariant (s.Erase n).2 := by
  cases hge : s.GetEntry n with
  | none =>
    have hst : (s.Erase n).2 = s := by simp [ConditionsStore.Erase, hge]
    rw [hst]
    exact ⟨hreg, hinv⟩
  | some ke =>
    obtain ⟨k, ce⟩ := ke
    cases hp : ce.provider with
    | none =>
      have hst : (s.Erase n).2 = { s with storage := eraseKey n s.storage } := by
        simp [ConditionsStore.Erase, hge, hp]
      rw [hst]
      refine ⟨hreg, ?_⟩
      intro x hx pn hpn
      exact hinv x (mem_eraseKey hx) pn hpn
    | some pn =>
      have hst : (s.Erase n).2 = s := by simp [ConditionsStore.Erase, hge, hp]
      rw [hst]
      exact ⟨hreg, hinv⟩

theorem storeWF_refAt {s : ConditionsStore}
    (hreg : RegistryWF s.providers) (hinv : StoreInvariant s) (n : String) :
    RegistryWF (s.refAt n).2.providers ∧ StoreInvariant (s.refAt n).2 := by
  cases hfx : findExact n s.storage with
  | some e =>
    have hst : (s.refAt n).2 = s := by simp [ConditionsStore.refAt, hfx]
    rw [hst]
    exact ⟨hreg, hinv⟩
  | none =>
    cases hge : s.GetEntry n with
    | none =>
      have hst : (s.refAt n).2 =
          { s with storage := insertSorted n ⟨0, none, ""⟩ s.storage } := by
        simp [ConditionsStore.refAt, hfx, hge]
      rw [hst]
      exact ⟨hreg, storeInv_insert hinv (fun pn hpn => absurd hpn (by simp))⟩
    | some ke =>
      obtain ⟨k, ce⟩ := ke
      have hst : (s.refAt n).2 =
          { s with storage := insertSorted n ⟨0, ce.provider, n⟩ s.storage } := by
        simp [ConditionsStore.refAt, hfx, hge]
      rw [hst]
      refine ⟨hreg, storeInv_insert hinv ?_⟩
      intro pn hpn
      obtain ⟨hmem, hor⟩ := getEntry_cases hge
      rcases hor with h1 | h1
      · subst h1
        exact absurd hmem (findExact_eq_none hfx)
      · obtain ⟨pn', p, hpn', hlp, hflag, hsp⟩ := h1
        simp only at hpn
        rw [hpn'] at hpn
        injection hpn with hpn
        subst hpn
        exact ⟨p, hlp, Or.inr hsp⟩

theorem storeWF_Load {s : ConditionsStore}
    (hreg : RegistryWF s.providers) (hinv : StoreInvariant s)
    (L : List (String × Option Int)) :
    RegistryWF (s.Load L).providers ∧ StoreInvariant (s.Load L) := by
  induction L generalizing s with
  | nil => exact ⟨hreg, hinv⟩
  | cons c t ih =>
    have h1 := storeWF_Set hreg hinv c.1 (c.2.getD 1)
    exact ih h1.1 h1.2

theorem storeWF_GetProviderNamed {s : ConditionsStore}
    (hreg : RegistryWF s.providers) (hinv : StoreInvariant s) (n : String) :
    RegistryWF (s.GetProviderNamed n).providers ∧
      StoreInvariant (s.GetProviderNamed n) := by
  refine ⟨registryWF_emplace hreg n false, ?_⟩
  intro x hx pn hpn
  obtain ⟨k, v⟩ := x
  have hsto : (s.GetProviderNamed n).storage =
      insertSorted n
        { (findExact n s.storage).getD ⟨0, none, ""⟩ with provider := some n }
        s.storage := rfl
  rw [hsto] at hx
  rcases mem_insertSorted hx with h1 | h1
  · injection h1 with hk hv
    rw [hv] at hpn
    simp only at hpn
    injection hpn with hpn
    obtain ⟨p, hlp, hpname⟩ := lookupProvider_emplace_self hreg n false
    rw [← hpn, hk]
    exact ⟨p, hlp, Or.inl hpname⟩
  · obtain ⟨p, hlp, hor⟩ := hinv (k, v) h1 pn hpn
    exact ⟨p, lookupProvider_emplace_mono n false hlp, hor⟩

theorem storeWF_GetProviderPrefixed {s : ConditionsStore}
    (hreg : RegistryWF s.providers) (hinv : StoreInvariant s) (pre : String) :
    RegistryWF (s.GetProviderPrefixed pre).providers ∧
      StoreInvariant (s.GetProviderPrefixed pre) := by
  refine ⟨registryWF_emplace hreg pre true, ?_⟩
  intro x hx pn hpn
  obtain ⟨k, v⟩ := x
  have hsto : (s.GetProviderPrefixed pre).storage =
      insertSorted pre
        { (findExact pre s.storage).getD ⟨0, none, ""⟩ with provider := some pre }
        s.storage := rfl
  rw [hsto] at hx
  rcases mem_insertSorted hx with h1 | h1
  · injection h1 with hk hv
    rw [hv] at hpn
    simp only at hpn
    injection hpn with hpn
    obtain ⟨p, hlp, hpname⟩ := lookupProvider_emplace_self hreg pre true
    rw [← hpn, hk]
    exact ⟨p, hlp, Or.inl hpname⟩
  · obtain ⟨p, hlp, hor⟩ := hinv (k, v) h1 pn hpn
    exact ⟨p, lookupProvider_emplace_mono pre true hlp, hor⟩

theorem storeWF_Clear (s : ConditionsStore) :
    RegistryWF s.Clear.providers ∧ StoreInvariant s.Clear := by
  constructor
  · intro x hx
    simp [ConditionsStore.Clear] at hx
  · intro x hx
    simp [ConditionsStore.Clear] at hx

/-- C9. The store invariant — every index entry with a set provider reference
points at a registered provider whose name is exactly the entry's key or a
textual prefix of it (`StoreInvariant`) — is preserved by `Set`, `Erase`,
`operator[]` (`refAt`), `Load`, `GetProviderNamed`, `GetProviderPrefixed` and
`Clear`. The registry component `RegistryWF` (each provider is stored under
its own name) holds by construction in C++, where the only registry insertion
is `providers.emplace(name, DerivedProvider(name, flag))`; it is carried and
re-established alongside, making the invariant inductive. -/
theorem C9_invariant_preservation (s : ConditionsStore)
    (hreg : RegistryWF s.providers) (hinv : StoreInvariant s) :
    (∀ n v, RegistryWF (s.Set n v).2.providers ∧ StoreInvariant (s.Set n v).2) ∧
      (∀ n, RegistryWF (s.Erase n).2.providers ∧ StoreInvariant (s.Erase n).2) ∧
      (∀ n, RegistryWF (s.refAt n).2.providers ∧ StoreInvariant (s.refAt n).2) ∧
      (∀ L, RegistryWF (s.Load L).providers ∧ StoreInvariant (s.Load L)) ∧
      (∀ n, RegistryWF (s.GetProviderNamed n).providers ∧
        StoreInvariant (s.GetProviderNamed n)) ∧
      (∀ pre, RegistryWF (s.GetProviderPrefixed pre).providers ∧
        StoreInvariant (s.GetProviderPrefixed pre)) ∧
      (RegistryWF s.Clear.providers ∧ StoreInvariant s.Clear) :=
  ⟨fun n v => storeWF_Set hreg hinv n v,
    fun n => storeWF_Erase hreg hinv n,
    fun n => storeWF_refAt hreg hinv n,
    fun L => storeWF_Load hreg hinv L,
    fun n => storeWF_GetProviderNamed hreg hinv n,
    fun pre => storeWF_GetProviderPrefixed hreg hinv pre,
    storeWF_Clear s⟩

/-- Witness for C9: a store with a registered prefix provider `"ev"` satisfies
both invariant components, and they are preserved across a `Set`. -/
theorem C9_witness :
    RegistryWF ((ConditionsStore.empty.GetProviderPrefixed "ev").Set
        "a" 5).2.providers ∧
      StoreInvariant ((ConditionsStore.empty.GetProviderPrefixed "ev").Set
        "a" 5).2 := by
  have hreg : RegistryWF (ConditionsStore.empty.GetProviderPrefixed "ev").providers := by
    intro x hx
    have hps : (ConditionsStore.empty.GetProviderPrefixed "ev").providers =
        [("ev", ⟨"ev", true, fun _ => 0, fun _ => false, fun _ _ => false,
          fun _ => false⟩)] := rfl
    rw [hps] at hx
    rcases List.mem_cons.mp hx with h1 | h1
    · rw [h1]
    · simp at h1
  have hinv : StoreInvariant (ConditionsStore.empty.GetProviderPrefixed "ev") := by
    intro x hx pn hpn
    have hsto : (ConditionsStore.empty.GetProviderPrefixed "ev").storage =
        [("ev", ⟨0, some "ev", ""⟩)] := rfl
    rw [hsto] at hx
    rcases List.mem_cons.mp hx with h1 | h1
    · rw [h1] at hpn ⊢
      simp only at hpn
      injection hpn with hpn
      refine ⟨⟨"ev", true, fun _ => 0, fun _ => false, fun _ _ => false,
        fun _ => false⟩, ?_, Or.inl rfl⟩
      rw [← hpn]
      rfl
    · simp at h1
  exact (C9_invariant_preservation _ hreg hinv).1 "a" 5

theorem findExact_none_of_head_lt {l : List (String × ConditionsStore.ConditionEntry)}
    {k : String} (h : ∀ x ∈ l, sLt k x.1 = true) : findExact k l = none := by
  cases hfx : findExact k l with
  | none => rfl
  | some e =>
    have hm := findExact_mem hfx
    have := h (k, e) hm
    rw [sLt_irrefl] at this
    exact absurd this (by simp)

/-- On a store whose entries are all primary, resolution is exactly exact-key
lookup. -/
theorem getEntry_allPrimary {s : ConditionsStore} (hs : SortedKeys s.storage)
    (hp : ∀ x ∈ s.storage, x.2.provider = none) (name : String) :
    s.GetEntry name = (findExact name s.storage).map (fun e => (name, e)) := by
  cases hx : findExact name s.storage with
  | some e => simp [getEntry_exact hs hx]
  | none =>
    unfold ConditionsStore.GetEntry
    cases hfl : findLE name s.storage with
    | none => simp
    | some ke =>
      obtain ⟨k, e⟩ := ke
      have hmem := findLE_mem hfl
      have hk : ¬ k = name := by
        intro h
        subst h
        exact absurd hmem (findExact_eq_none hx)
      have hpe : e.provider = none := hp (k, e) hmem
      simp [hk, hpe]

theorem get_allPrimary {s : ConditionsStore} (hs : SortedKeys s.storage)
    (hp : ∀ x ∈ s.storage, x.2.provider = none) (name : String) :
    s.Get name = (findExact name s.storage).elim 0 (fun e => e.value) := by
  have h := getEntry_allPrimary hs hp name
  cases hx : findExact name s.storage with
  | some e =>
    rw [hx] at h
    simp at h
    rw [get_of_getEntry_noprov h (hp (name, e) (findExact_mem hx))]
    rfl
  | none =>
    rw [hx] at h
    simp at h
    rw [get_of_getEntry_none h]
    rfl

theorem has_allPrimary {s : ConditionsStore} (hs : SortedKeys s.storage)
    (hp : ∀ x ∈ s.storage, x.2.provider = none) (name : String) :
    s.Has name = (findExact name s.storage).isSome := by
  have h := getEntry_allPrimary hs hp name
  cases hx : findExact name s.storage with
  | some e =>
    rw [hx] at h
    simp at h
    rw [has_of_getEntry_noprov h (hp (name, e) (findExact_mem hx))]
    rfl
  | none =>
    rw [hx] at h
    simp at h
    rw [has_of_getEntry_none h]
    rfl

/-- On an all-primary store, `Set` is insert-or-overwrite at the exact key,
reports success, and leaves the registry alone. -/
theorem set_allPrimary {s : ConditionsStore} (hs : SortedKeys s.storage)
    (hp : ∀ x ∈ s.storage, x.2.provider = none) (a : String) (w : Int) :
    ∃ fk, (s.Set a w).2 =
        { s with storage := insertSorted a ⟨w, none, fk⟩ s.storage } ∧
      (s.Set a w).1 = true := by
  have hge := getEntry_allPrimary hs hp a
  cases hx : findExact a s.storage with
  | none =>
    rw [hx] at hge
    simp at hge
    exact ⟨"", by simp [ConditionsStore.Set, hge], by simp [ConditionsStore.Set, hge]⟩
  | some e =>
    rw [hx] at hge
    simp at hge
    have hpe : e.provider = none := hp (a, e) (findExact_mem hx)
    exact ⟨e.fullKey, by simp [ConditionsStore.Set, hge, hpe],
      by simp [ConditionsStore.Set, hge, hpe]⟩

theorem primariesOf_allPrimary {l : List (String × ConditionsStore.ConditionEntry)}
    (hp : ∀ x ∈ l, x.2.provider = none) :
    primariesOf l = l.map (fun x => (x.1, x.2.value)) := by
  induction l with
  | nil => rfl
  | cons y t ih =>
    obtain ⟨k, e⟩ := y
    have hpe : e.provider = none := hp (k, e) (List.mem_cons_self _ _)
    have hrest : ∀ x ∈ t, x.2.provider = none :=
      fun x hx => hp x (List.mem_cons_of_mem _ hx)
    simp [primariesOf, hpe, ih hrest]

/-- The last binding for `k` in a row list — what a sequence of `Set` calls
leaves behind (later duplicates overwrite earlier ones). -/
def assocLast (k : String) : List (String × Option Int) → Option (Option Int)
  | [] => none
  | (a, v) :: t =>
    match assocLast k t with
    | some r => some r
    | none => if a = k then some v else none

theorem assocLast_mem {L : List (String × Option Int)} {k : String} {v : Option Int}
    (h : assocLast k L = some v) : (k, v) ∈ L := by
  induction L with
  | nil => simp [assocLast] at h
  | cons y t ih =>
    obtain ⟨a, w⟩ := y
    simp only [assocLast] at h
    cases hat : assocLast k t with
    | some r =>
      rw [hat] at h
      injection h with h
      exact List.mem_cons_of_mem _ (ih (h ▸ hat))
    | none =>
      rw [hat] at h
      by_cases hak : a = k
      · rw [if_pos hak] at h
        injection h with h
        rw [hak, h]
        exact List.mem_cons_self _ _
      · rw [if_neg hak] at h
        exact absurd h (by simp)

theorem assocLast_cons_ne {a k : String} {w : Option Int} {t : List (String × Option Int)}
    (hak : ¬ a = k) : assocLast k ((a, w) :: t) = assocLast k t := by
  simp only [assocLast]
  cases hat : assocLast k t with
  | some r => rfl
  | none => rw [if_neg hak]

theorem assocLast_none_of_not_mem {L : List (String × Option Int)} {k : String}
    (h : ∀ x ∈ L, x.1 ≠ k) : assocLast k L = none := by
  induction L with
  | nil => rfl
  | cons y t ih =>
    obtain ⟨a, w⟩ := y
    simp only [assocLast]
    rw [ih (fun x hx => h x (List.mem_cons_of_mem _ hx))]
    rw [if_neg (h (a, w) (List.mem_cons_self _ _))]

/-- Characterization of `Load` on an all-primary store: the resulting `Get`
returns the last loaded binding for the key (bare tokens meaning `1`), and
`Has`/sortedness/primariness evolve accordingly. -/
theorem load_char (L : List (String × Option Int)) :
    ∀ s : ConditionsStore, SortedKeys s.storage →
      (∀ x ∈ s.storage, x.2.provider = none) →
      SortedKeys (s.Load L).storage ∧
        (∀ x ∈ (s.Load L).storage, x.2.provider = none) ∧
        (∀ k, (s.Load L).Get k =
          (assocLast k L).elim (s.Get k) (fun ov => ov.getD 1)) ∧
        (∀ k, (s.Load L).Has k =
          (assocLast k L).elim (s.Has k) (fun _ => true)) := by
  induction L with
  | nil =>
    intro s hs hp
    exact ⟨hs, hp, fun k => rfl, fun k => rfl⟩
  | cons c t ih =>
    intro s hs hp
    obtain ⟨a, w⟩ := c
    obtain ⟨fk, hst, _⟩ := set_allPrimary hs hp a (w.getD 1)
    have hload : s.Load ((a, w) :: t) = ((s.Set a (w.getD 1)).2).Load t := rfl
    have hs1 : SortedKeys (s.Set a (w.getD 1)).2.storage := by
      rw [hst]
      exact sorted_insertSorted a _ hs
    have hp1 : ∀ x ∈ (s.Set a (w.getD 1)).2.storage, x.2.provider = none := by
      rw [hst]
      intro x hx
      obtain ⟨k1, v1⟩ := x
      rcases mem_insertSorted hx with h1 | h1
      · injection h1 with hk hv
        rw [hv]
      · exact hp (k1, v1) h1
    have hget1 : ∀ k, (s.Set a (w.getD 1)).2.Get k =
        if a = k then w.getD 1 else s.Get k := by
      intro k
      rw [get_allPrimary hs1 hp1 k, get_allPrimary hs hp k, hst]
      simp only
      rw [findExact_insertSorted]
      by_cases hak : a = k
      · rw [if_pos hak, if_pos hak]
        rfl
      · rw [if_neg hak, if_neg hak]
    have hhas1 : ∀ k, (s.Set a (w.getD 1)).2.Has k =
        (if a = k then true else s.Has k) := by
      intro k
      rw [has_allPrimary hs1 hp1 k, has_allPrimary hs hp k, hst]
      simp only
      rw [findExact_insertSorted]
      by_cases hak : a = k
      · rw [if_pos hak, if_pos hak]
        rfl
      · rw [if_neg hak, if_neg hak]
    obtain ⟨ihs, ihp, ihget, ihhas⟩ := ih (s.Set a (w.getD 1)).2 hs1 hp1
    rw [hload]
    refine ⟨ihs, ihp, ?_, ?_⟩
    · intro k
      rw [ihget k]
      simp only [assocLast]
      cases hat : assocLast k t with
      | some r => rfl
      | none =>
        simp only [Option.elim]
        rw [hget1 k]
        by_cases hak : a = k
        · rw [if_pos hak, if_pos hak]
        · rw [if_neg hak, if_neg hak]
    · intro k
      rw [ihhas k]
      simp only [assocLast]
      cases hat : assocLast k t with
      | some r => rfl
      | none =>
        simp only [Option.elim]
        rw [hhas1 k]
        by_cases hak : a = k
        · rw [if_pos hak, if_pos hak]
        · rw [if_neg hak, if_neg hak]

/-- What one primary entry contributes to the saved row list: nothing for
value `0`, a bare key for value `1`, an explicit `(key, value)` row
otherwise. -/
def saveBinding (e : ConditionsStore.ConditionEntry) : Option (Option Int) :=
  if e.value = 1 then some none
  else if e.value = 0 then none
  else some (some e.value)

theorem mem_saveRows {M : List (String × Int)} {x : String × Option Int}
    (h : x ∈ saveRows M) : ∃ v, (x.1, v) ∈ M := by
  induction M with
  | nil => simp [saveRows] at h
  | cons y t ih =>
    obtain ⟨b, v⟩ := y
    simp only [saveRows] at h
    by_cases h1 : v = 1
    · rw [if_pos h1] at h
      rcases List.mem_cons.mp h with h2 | h2
      · exact ⟨v, by rw [h2]; exact List.mem_cons_self _ _⟩
      · obtain ⟨w, hw⟩ := ih h2
        exact ⟨w, List.mem_cons_of_mem _ hw⟩
    · rw [if_neg h1] at h
      by_cases h0 : v = 0
      · rw [if_pos h0] at h
        obtain ⟨w, hw⟩ := ih h
        exact ⟨w, List.mem_cons_of_mem _ hw⟩
      · rw [if_neg h0] at h
        rcases List.mem_cons.mp h with h2 | h2
        · exact ⟨v, by rw [h2]; exact List.mem_cons_self _ _⟩
        · obtain ⟨w, hw⟩ := ih h2
          exact ⟨w, List.mem_cons_of_mem _ hw⟩

theorem saveRows_keys_gt {a : String} {t : List (String × ConditionsStore.ConditionEntry)}
    (hhead : ∀ x ∈ t, sLt a x.1 = true) :
    ∀ x ∈ saveRows (t.map (fun x => (x.1, x.2.value))), x.1 ≠ a := by
  intro x hx
  obtain ⟨v, hv⟩ := mem_saveRows hx
  obtain ⟨y, hyt, hy⟩ := List.mem_map.mp hv
  have h1 : y.1 = x.1 := congrArg Prod.fst hy
  have h2 := sLt_ne (hhead y hyt)
  rw [h1] at h2
  exact fun hc => h2 hc.symm

/-- The saved row list of a sorted all-primary index binds each key to exactly
its `saveBinding` contribution. -/
theorem assocLast_saveRows {l : List (String × ConditionsStore.ConditionEntry)}
    (hs : SortedKeys l) (k : String) :
    assocLast k (saveRows (l.map (fun x => (x.1, x.2.value)))) =
      (findExact k l).bind saveBinding := by
  induction l with
  | nil => rfl
  | cons y t ih =>
    obtain ⟨a, e⟩ := y
    have hhead : ∀ x ∈ t, sLt a x.1 = true := (List.pairwise_cons.mp hs).1
    have htail := (List.pairwise_cons.mp hs).2
    have hnomem : ∀ x ∈ saveRows (t.map (fun x => (x.1, x.2.value))), x.1 ≠ a :=
      saveRows_keys_gt hhead
    rw [List.map_cons]
    by_cases h1 : e.value = 1
    · have hrow : saveRows ((a, e.value) :: t.map (fun x => (x.1, x.2.value))) =
          (a, (none : Option Int)) :: saveRows (t.map (fun x => (x.1, x.2.value))) := by
        simp [saveRows, h1]
      rw [hrow]
      by_cases hak : a = k
      · rw [← hak]
        simp only [assocLast]
        rw [assocLast_none_of_not_mem hnomem]
        simp [findExact, saveBinding, h1]
      · rw [assocLast_cons_ne hak, ih htail]
        simp only [findExact, if_neg hak]
    · by_cases h0 : e.value = 0
      · have hrow : saveRows ((a, e.value) :: t.map (fun x => (x.1, x.2.value))) =
            saveRows (t.map (fun x => (x.1, x.2.value))) := by
          simp [saveRows, h1, h0]
        rw [hrow]
        by_cases hak : a = k
        · rw [← hak]
          rw [assocLast_none_of_not_mem hnomem]
          simp [findExact, saveBinding, h1, h0]
        · rw [ih htail]
          simp only [findExact, if_neg hak]
      · have hrow : saveRows ((a, e.value) :: t.map (fun x => (x.1, x.2.value))) =
            (a, some e.value) :: saveRows (t.map (fun x => (x.1, x.2.value))) := by
          simp [saveRows, h1, h0]
        rw [hrow]
        by_cases hak : a = k
        · rw [← hak]
          simp only [assocLast]
          rw [assocLast_none_of_not_mem hnomem]
          simp [findExact, saveBinding, h1, h0]
        · rw [assocLast_cons_ne hak, ih htail]
          simp only [findExact, if_neg hak]

/-- C2. Round trip through serialization for a store containing only primary
(provider-free) entries: loading the saved rows into a fresh store yields the
same `Get` for every key whose value was nonzero, and `Get == 0` with
`Has == false` for every key whose value was exactly `0` (or absent) — stored
zeros are not preserved as present. An entry with value exactly `1` is written
as a bare key token (no value) and loads back to `1`. -/
theorem C2_save_load_roundtrip (s : ConditionsStore)
    (hs : SortedKeys s.storage)
    (hp : ∀ x ∈ s.storage, x.2.provider = none) :
    (∀ k, s.Get k ≠ 0 → (ConditionsStore.empty.Load s.Save).Get k = s.Get k) ∧
      (∀ k, s.Get k = 0 → (ConditionsStore.empty.Load s.Save).Get k = 0 ∧
        (ConditionsStore.empty.Load s.Save).Has k = false) ∧
      (∀ k e, findExact k s.storage = some e → e.value = 1 →
        (k, (none : Option Int)) ∈ s.Save ∧
          (ConditionsStore.empty.Load s.Save).Get k = 1) := by
  have hsave : s.Save = saveRows (s.storage.map fun x => (x.1, x.2.value)) := by
    unfold ConditionsStore.Save ConditionsStore.PrimariesBegin
    rw [toList_move, primariesOf_allPrimary hp]
  have hassoc : ∀ k, assocLast k s.Save = (findExact k s.storage).bind saveBinding := by
    intro k
    rw [hsave]
    exact assocLast_saveRows hs k
  have hempty_s : SortedKeys (ConditionsStore.empty.storage) := List.Pairwise.nil
  have hempty_p : ∀ x ∈ ConditionsStore.empty.storage, x.2.provider = none := by
    intro x hx
    simp [ConditionsStore.empty] at hx
  obtain ⟨_, _, hget, hhas⟩ := load_char s.Save ConditionsStore.empty hempty_s hempty_p
  have hempty_get : ∀ k, ConditionsStore.empty.Get k = 0 := fun _ => rfl
  have hempty_has : ∀ k, ConditionsStore.empty.Has k = false := fun _ => rfl
  refine ⟨?_, ?_, ?_⟩
  · intro k hne
    have hg := get_allPrimary hs hp k
    cases hx : findExact k s.storage with
    | none =>
      have h0 : s.Get k = 0 := by rw [hg, hx]; rfl
      exact absurd h0 hne
    | some e =>
      have hv : s.Get k = e.value := by rw [hg, hx]; rfl
      have hvne : e.value ≠ 0 := hv ▸ hne
      rw [hget k, hassoc k, hx, hv]
      by_cases h1 : e.value = 1
      · simp [saveBinding, h1]
      · simp [saveBinding, h1, hvne]
  · intro k h0
    have hg := get_allPrimary hs hp k
    rw [hget k, hhas k, hassoc k]
    cases hx : findExact k s.storage with
    | none => simp [hempty_get, hempty_has]
    | some e =>
      have hv : s.Get k = e.value := by rw [hg, hx]; rfl
      have hv0 : e.value = 0 := by rw [← hv]; exact h0
      have hv1 : ¬ e.value = 1 := by rw [hv0]; decide
      simp [saveBinding, hv0, hv1, hempty_get, hempty_has]
  · intro k e hx h1
    constructor
    · have ha : assocLast k s.Save = some none := by
        rw [hassoc k, hx]
        simp [saveBinding, h1]
      exact assocLast_mem ha
    · rw [hget k, hassoc k, hx]
      simp [saveBinding, h1]

/-- Witness for C2: the store `a=1, b=5, c=0` saves to `[a (bare), (b, 5)]`
and reloads to `a=1, b=5`, with `c` absent. -/
theorem C2_witness :
    (ConditionsStore.empty.Load
        ((((ConditionsStore.empty.Set "a" 1).2.Set "b" 5).2.Set "c" 0).2.Save)).Get
        "a" = 1 ∧
      (ConditionsStore.empty.Load
        ((((ConditionsStore.empty.Set "a" 1).2.Set "b" 5).2.Set "c" 0).2.Save)).Get
        "b" = 5 ∧
      (ConditionsStore.empty.Load
        ((((ConditionsStore.empty.Set "a" 1).2.Set "b" 5).2.Set "c" 0).2.Save)).Get
        "c" = 0 ∧
      (ConditionsStore.empty.Load
        ((((ConditionsStore.empty.Set "a" 1).2.Set "b" 5).2.Set "c" 0).2.Save)).Has
        "c" = false ∧
      ("a", (none : Option Int)) ∈
        (((ConditionsStore.empty.Set "a" 1).2.Set "b" 5).2.Set "c" 0).2.Save := by
  have h := C2_save_load_roundtrip
    (((ConditionsStore.empty.Set "a" 1).2.Set "b" 5).2.Set "c" 0).2
    (by decide) (by decide)
  refine ⟨?_, ?_, ?_, ?_, ?_⟩
  · rw [h.1 "a" (by decide)]
    decide
  · rw [h.1 "b" (by decide)]
    decide
  · exact (h.2.1 "c" (by decide)).1
  · exact (h.2.1 "c" (by decide)).2
  · exact (h.2.2 "a" ⟨1, none, ""⟩ (by decide) rfl).1
